import Mathlib

/-!
Shallow embedding of the `transport` package (files `transport/solvers.py` and
`transport/scatter1d.py`) and proofs about it.

Floating-point arrays are modelled as `List K` over an arbitrary field `K`,
so that the definitions stay executable; the theorems instantiate `K := ℂ`,
with `np.exp` modelled by `Complex.exp` and `np.sqrt` by the real square
root of the real part (the energies used are real scalars).  The Numerov
loop of `solvers.numerov` in full mode writes into a preallocated buffer `y`;
we model the memory it touches with an explicit record (`NumerovMem`) threaded
through a fold, so that the frame property (the input array `q` is only read)
is a theorem rather than a modelling assumption.
-/

namespace Transport

variable {K : Type} [Field K]

/-- Coefficient `a[i] = 12 + dx*dx * q[i]` from `solvers.numerov`. -/
def aCoef (dx : K) (qi : K) : K := 12 + dx * dx * qi

/-- Coefficient `b[i] = 24 - 10*dx*dx * q[i]` from `solvers.numerov`. -/
def bCoef (dx : K) (qi : K) : K := 24 - 10 * (dx * dx) * qi

/-- The array `a = 12 + dx*dx * q` (element-wise over the sampled `q`). -/
def aCoeffs (dx : K) (q : List K) : List K := q.map (aCoef dx)

/-- The array `b = 24 - 10*dx*dx * q` (element-wise over the sampled `q`). -/
def bCoeffs (dx : K) (q : List K) : List K := q.map (bCoef dx)

/-- Memory touched by `solvers.numerov` in full mode: the caller's array `q`,
the derived coefficient arrays `a`, `b`, and the output buffer `y`. -/
structure NumerovMem (K : Type) where
  q : List K
  a : List K
  b : List K
  y : List K

/-- One iteration `y[i] = (b[i-1]*y[i-1] - a[i-2]*y[i-2]) / a[i]` of the full-mode
loop; the only write is into the buffer `y`. -/
def numerovMemStep (m : NumerovMem K) (i : ℕ) : NumerovMem K :=
  { m with y := m.y.set i ((m.b.getD (i - 1) 0 * m.y.getD (i - 1) 0
      - m.a.getD (i - 2) 0 * m.y.getD (i - 2) 0) / m.a.getD i 0) }

/-- Memory state before the loop: `a`, `b` precomputed, buffer `y` allocated
(`np.empty`, modelled with zeros) with `y[0:2] = (y0, y1)`. -/
def numerovInit (q : List K) (y0 y1 : K) (dx : K) : NumerovMem K :=
  { q := q, a := aCoeffs dx q, b := bCoeffs dx q,
    y := ((List.replicate q.length 0).set 0 y0).set 1 y1 }

/-- Memory state after the full-mode loop `for i in range(2, n)`. -/
def numerovFullMem (q : List K) (y0 y1 : K) (dx : K) : NumerovMem K :=
  (List.range' 2 (q.length - 2)).foldl numerovMemStep (numerovInit q y0 y1 dx)

/-- Full-mode result of `solvers.numerov`: the buffer `y` after the loop. -/
def numerovFull (q : List K) (y0 y1 : K) (dx : K) : List K :=
  (numerovFullMem q y0 y1 dx).y

/-- One iteration `y0, y1 = y1, (b[i-1]*y1 - a[i-2]*y0) / a[i]` of the
last-two-values loop of `solvers.numerov`. -/
def numerovTailStep (a b : List K) (p : K × K) (i : ℕ) : K × K :=
  (p.2, (b.getD (i - 1) 0 * p.2 - a.getD (i - 2) 0 * p.1) / a.getD i 0)

/-- Result of `solvers.numerov` with `full=False`: the pair `(y0, y1)` after
the loop `for i in range(2, n)`. -/
def numerovTail (q : List K) (y0 y1 : K) (dx : K) : K × K :=
  (List.range' 2 (q.length - 2)).foldl
    (numerovTailStep (aCoeffs dx q) (bCoeffs dx q)) (y0, y1)

/-- The function `solvers.numerov`: full mode returns the whole buffer,
otherwise only the last two values. -/
def numerov (q : List K) (y0 y1 : K) (dx : K) (full : Bool) : List K ⊕ K × K :=
  if full then Sum.inl (numerovFull q y0 y1 dx) else Sum.inr (numerovTail q y0 y1 dx)

/-- Closed form of the Numerov recursion: `numerovPairRec a b y0 y1 j = (y_j, y_{j+1})`. -/
def numerovPairRec (a b : List K) (y0 y1 : K) : ℕ → K × K
  | 0 => (y0, y1)
  | j + 1 =>
    ((numerovPairRec a b y0 y1 j).2,
      (b.getD (j + 1) 0 * (numerovPairRec a b y0 y1 j).2
        - a.getD j 0 * (numerovPairRec a b y0 y1 j).1) / a.getD (j + 2) 0)

/- ### The scattering solver `transport/scatter1d.py`

The functions take the numpy primitives they use as explicit parameters:
`sqrtK` for `np.sqrt`, `expK` for `np.exp`, `im` for the literal `1J`.  The
theorems instantiate them at `K := ℂ` with `csqrt`, `Complex.exp`, `Complex.I`.
The energy is kept scalar here (the trailing singleton numpy axis is dropped);
the vectorized pipeline over a whole list of energies is modelled separately
below and relates batch mode to this scalar pipeline. -/

/- `np.sqrt` at the real scalar energies `scatter1d` is used with is modelled
by the function `fun z => ((Real.sqrt z.re : ℝ) : ℂ)`, written out in each
statement (`Real.sqrt` has no executable code, so it cannot appear in a
compiled definition). -/

/-- The function `scatter1d.amplitudes`, scalar energy: pad the potential with
two zeros on each side, build `q = e - v`, reverse it for a left-incident
particle, seed with `exp(1J*k*dx)`, `1.0`, propagate with `numerov` in
last-two-values mode, and match with the free propagation ansatz. -/
def amplitudes (sqrtK expK : K → K) (im : K) (e : K) (v : List K) (dx : K)
    (left : Bool) : K × K :=
  let n := v.length
  let vp := [0, 0] ++ v ++ [0, 0]
  let k := sqrtK e
  let q := vp.map (fun vi => e - vi)
  let q := if left then q.reverse else q
  let y0 := expK (im * k * dx)
  let y1 : K := 1
  let p := numerovTail q y0 y1 dx
  let det := expK (im * k * dx) - expK (-im * k * dx)
  if left then
    let a := (expK (2 * im * k * dx) * p.1 - expK (im * k * dx) * p.2) / det
    let b := (-expK (-(2 * im) * k * dx) * p.1 + expK (-im * k * dx) * p.2) / det
    let c := expK (-im * k * (n : K) * dx)
    (b / a, c / a)
  else
    let a := (expK (im * k * ((n : K) + 1) * dx) * p.1
        - expK (im * k * (n : K) * dx) * p.2) / det
    let b := (-expK (-im * k * ((n : K) + 1) * dx) * p.1
        + expK (-im * k * (n : K) * dx) * p.2) / det
    let c := expK (-im * k * dx)
    (b / a, c / a)

/-- The function `scatter1d.wavefunction`: as `amplitudes`, but propagating in
full mode, normalizing by the incident coefficient `a` obtained from the two
tail values, restoring the original spatial order and stripping the padding. -/
def wavefunction (sqrtK expK : K → K) (im : K) (e : K) (v : List K) (dx : K)
    (left : Bool) : List K :=
  let n := v.length
  let k := sqrtK e
  let q := [e, e] ++ v.map (fun vi => e - vi) ++ [e, e]
  let q := if left then q.reverse else q
  let y0 := expK (im * k * dx)
  let y1 : K := 1
  let y := numerovFull q y0 y1 dx
  let p := (y.getD (y.length - 2) 0, y.getD (y.length - 1) 0)
  let y := if left then y.reverse else y
  let det := expK (im * k * dx) - expK (-im * k * dx)
  let a := if left then
      (expK (2 * im * k * dx) * p.1 - expK (im * k * dx) * p.2) / det
    else
      (expK (im * k * ((n : K) + 1) * dx) * p.1
        - expK (im * k * (n : K) * dx) * p.2) / det
  ((y.drop 2).take (y.length - 4)).map (fun yi => yi / a)

/-- The padded coefficient sequence of length `n + 4`: the free-lead value `e`
at the two prepended and the two appended points, `e - v` inside. -/
def paddedQ (e : K) (v : List K) : List K :=
  [e, e] ++ v.map (fun vi => e - vi) ++ [e, e]

/-- Boundary-matching step of `amplitudes`: the code after the `numerov` call,
as a function of the two propagated tail values. -/
def ampMatch (expK : K → K) (im k : K) (n : ℕ) (dx : K) (left : Bool)
    (p : K × K) : K × K :=
  let det := expK (im * k * dx) - expK (-im * k * dx)
  if left then
    let a := (expK (2 * im * k * dx) * p.1 - expK (im * k * dx) * p.2) / det
    let b := (-expK (-(2 * im) * k * dx) * p.1 + expK (-im * k * dx) * p.2) / det
    let c := expK (-im * k * (n : K) * dx)
    (b / a, c / a)
  else
    let a := (expK (im * k * ((n : K) + 1) * dx) * p.1
        - expK (im * k * (n : K) * dx) * p.2) / det
    let b := (-expK (-im * k * ((n : K) + 1) * dx) * p.1
        + expK (-im * k * (n : K) * dx) * p.2) / det
    let c := expK (-im * k * dx)
    (b / a, c / a)

/-- Post-integration step of `wavefunction`: extract the tail values, restore
the spatial order, normalize and strip the padding. -/
def wfPost (expK : K → K) (im k : K) (n : ℕ) (dx : K) (left : Bool)
    (y : List K) : List K :=
  let p := (y.getD (y.length - 2) 0, y.getD (y.length - 1) 0)
  let y := if left then y.reverse else y
  let det := expK (im * k * dx) - expK (-im * k * dx)
  let a := if left then
      (expK (2 * im * k * dx) * p.1 - expK (im * k * dx) * p.2) / det
    else
      (expK (im * k * ((n : K) + 1) * dx) * p.1
        - expK (im * k * (n : K) * dx) * p.2) / det
  ((y.drop 2).take (y.length - 4)).map (fun yi => yi / a)

/- ### Vectorized batch mode (a sequence of energies)

In the source, `q = e - v[:, np.newaxis]` carries a trailing energy axis and
the whole pipeline operates element-wise along it.  Arrays with that axis are
modelled position-major as `List (List K)`: one vector over the energies per
sampling point. -/

/-- Element-wise product of two vectors along the energy axis. -/
def vMul (xs ys : List K) : List K := List.zipWith (fun x y => x * y) xs ys

/-- Element-wise difference of two vectors along the energy axis. -/
def vSub (xs ys : List K) : List K := List.zipWith (fun x y => x - y) xs ys

/-- Element-wise sum of two vectors along the energy axis. -/
def vAdd (xs ys : List K) : List K := List.zipWith (fun x y => x + y) xs ys

/-- Element-wise quotient of two vectors along the energy axis. -/
def vDiv (xs ys : List K) : List K := List.zipWith (fun x y => x / y) xs ys

/-- The matrix `a = 12 + dx*dx*q` for batched `q` (element-wise). -/
def aCoeffsVec (dx : K) (q : List (List K)) : List (List K) :=
  q.map (List.map (aCoef dx))

/-- The matrix `b = 24 - 10*dx*dx*q` for batched `q` (element-wise). -/
def bCoeffsVec (dx : K) (q : List (List K)) : List (List K) :=
  q.map (List.map (bCoef dx))

/-- One batched iteration of the last-two-values loop of `solvers.numerov`:
the same update, element-wise along the energy axis. -/
def numerovTailStepVec (a b : List (List K)) (p : List K × List K) (i : ℕ) :
    List K × List K :=
  (p.2, vDiv (vSub (vMul (b.getD (i - 1) []) p.2) (vMul (a.getD (i - 2) []) p.1))
    (a.getD i []))

/-- Batched `solvers.numerov` with `full=False`. -/
def numerovTailVec (q : List (List K)) (y0 y1 : List K) (dx : K) :
    List K × List K :=
  (List.range' 2 (q.length - 2)).foldl
    (numerovTailStepVec (aCoeffsVec dx q) (bCoeffsVec dx q)) (y0, y1)

/-- The function `scatter1d.amplitudes` on a sequence of energies: the same
pipeline element-wise along the energy axis (`q = e - v[:, np.newaxis]`, the
scalar seed `1.0` broadcast), the resulting `(r, t)` pairs in input order. -/
def amplitudesBatch (sqrtK expK : K → K) (im : K) (es : List K) (v : List K)
    (dx : K) (left : Bool) : List (K × K) :=
  let n := v.length
  let vp := [0, 0] ++ v ++ [0, 0]
  let ks := es.map sqrtK
  let q := vp.map (fun vi => es.map (fun e => e - vi))
  let q := if left then q.reverse else q
  let y0 := ks.map (fun k => expK (im * k * dx))
  let y1 := es.map (fun _ => (1 : K))
  let p := numerovTailVec q y0 y1 dx
  let det := ks.map (fun k => expK (im * k * dx) - expK (-im * k * dx))
  if left then
    let a := vDiv (vSub (vMul (ks.map (fun k => expK (2 * im * k * dx))) p.1)
        (vMul (ks.map (fun k => expK (im * k * dx))) p.2)) det
    let b := vDiv (vAdd (vMul (ks.map (fun k => -expK (-(2 * im) * k * dx))) p.1)
        (vMul (ks.map (fun k => expK (-im * k * dx))) p.2)) det
    let c := ks.map (fun k => expK (-im * k * (n : K) * dx))
    (vDiv b a).zip (vDiv c a)
  else
    let a := vDiv (vSub (vMul (ks.map (fun k => expK (im * k * ((n : K) + 1) * dx))) p.1)
        (vMul (ks.map (fun k => expK (im * k * (n : K) * dx))) p.2)) det
    let b := vDiv (vAdd (vMul (ks.map (fun k => -expK (-im * k * ((n : K) + 1) * dx))) p.1)
        (vMul (ks.map (fun k => expK (-im * k * (n : K) * dx))) p.2)) det
    let c := ks.map (fun k => expK (-im * k * dx))
    (vDiv b a).zip (vDiv c a)

/- ### Frame property: the caller's arrays are only read

Arrays live in a store addressed by index; each function allocates fresh
arrays at the end of the store and the only element writes of the whole
package (the full-mode Numerov loop) go into the freshly allocated buffer. -/

/-- A heap of numpy arrays, addressed by allocation index. -/
abbrev Store (K : Type) := List (List K)

/-- Read a whole array from the store. -/
def readArr {α : Type} (st : Store α) (r : ℕ) : List α := st.getD r []

/-- Write one element of the array at address `r`. -/
def writeElem {α : Type} (st : Store α) (r i : ℕ) (x : α) : Store α :=
  st.set r ((st.getD r []).set i x)

/-- One full-mode Numerov iteration in store-passing style: reads the arrays
at `ra`, `rb`, `ry` and writes `y[i]` at `ry`. -/
def numerovStStep (ra rb ry : ℕ) (st : Store K) (i : ℕ) : Store K :=
  writeElem st ry i
    (((readArr st rb).getD (i - 1) 0 * (readArr st ry).getD (i - 1) 0
      - (readArr st ra).getD (i - 2) 0 * (readArr st ry).getD (i - 2) 0)
      / (readArr st ra).getD i 0)

/-- Store-passing `solvers.numerov`, full mode: `a`, `b` and the output buffer
are freshly allocated; the loop writes only into the buffer.  Returns the
final store and the buffer's address. -/
def numerovFullSt (st : Store K) (rq : ℕ) (y0 y1 : K) (dx : K) : Store K × ℕ :=
  let q := readArr st rq
  let st1 := st ++ [aCoeffs dx q, bCoeffs dx q,
    ((List.replicate q.length 0).set 0 y0).set 1 y1]
  ((List.range' 2 (q.length - 2)).foldl
      (numerovStStep st.length (st.length + 1) (st.length + 2)) st1,
    st.length + 2)

/-- Store-passing `solvers.numerov`, last-two-values mode: `a` and `b` are
freshly allocated and no array element is ever written. -/
def numerovTailSt (st : Store K) (rq : ℕ) (y0 y1 : K) (dx : K) : (K × K) × Store K :=
  let q := readArr st rq
  let st1 := st ++ [aCoeffs dx q, bCoeffs dx q]
  ((List.range' 2 (q.length - 2)).foldl
      (numerovTailStep (readArr st1 st.length) (readArr st1 (st.length + 1))) (y0, y1),
    st1)

/-- Store-passing `scatter1d.amplitudes`: the caller's potential sits at `rv`;
the padded array and `q` are fresh allocations, the integrator runs in
last-two-values mode. -/
def amplitudesSt (sqrtK expK : K → K) (im : K) (e : K) (st : Store K) (rv : ℕ)
    (dx : K) (left : Bool) : (K × K) × Store K :=
  let v := readArr st rv
  let st1 := st ++ [[0, 0] ++ v ++ [0, 0]]
  let k := sqrtK e
  let st2 := st1 ++ [(readArr st1 st.length).map (fun vi => e - vi)]
  let q := readArr st2 (st.length + 1)
  let st3 := st2 ++ [if left then q.reverse else q]
  let pst := numerovTailSt st3 (st.length + 2) (expK (im * k * dx)) 1 dx
  (ampMatch expK im k v.length dx left pst.1, pst.2)

/-- Store-passing `scatter1d.wavefunction`: the caller's potential sits at
`rv`; `q` is a fresh allocation, the integrator runs in full mode and writes
only into its own buffer. -/
def wavefunctionSt (sqrtK expK : K → K) (im : K) (e : K) (st : Store K) (rv : ℕ)
    (dx : K) (left : Bool) : List K × Store K :=
  let v := readArr st rv
  let k := sqrtK e
  let q0 := [e, e] ++ v.map (fun vi => e - vi) ++ [e, e]
  let st1 := st ++ [if left then q0.reverse else q0]
  let res := numerovFullSt st1 st.length (expK (im * k * dx)) 1 dx
  (wfPost expK im k v.length dx left (readArr res.1 res.2), res.1)

/- ### Helper lemmas -/

lemma getD_map_of_lt (f : K → K) (l : List K) (i : ℕ) (h : i < l.length) :
    (l.map f).getD i 0 = f (l.getD i 0) := by
  rw [List.getD_eq_getElem _ _ (by simpa using h), List.getD_eq_getElem _ _ h,
    List.getElem_map]

lemma getD_set_self {α : Type} (l : List α) (i : ℕ) (x d : α) (h : i < l.length) :
    (l.set i x).getD i d = x := by
  rw [List.getD_eq_getElem?_getD, List.getElem?_set]
  simp [h]

lemma getD_set_of_ne {α : Type} (l : List α) (i j : ℕ) (x d : α) (h : i ≠ j) :
    (l.set i x).getD j d = l.getD j d := by
  rw [List.getD_eq_getElem?_getD, List.getElem?_set, if_neg h,
    List.getD_eq_getElem?_getD]

lemma aCoeffs_getD (dx : K) (q : List K) (i : ℕ) (h : i < q.length) :
    (aCoeffs dx q).getD i 0 = aCoef dx (q.getD i 0) :=
  getD_map_of_lt _ _ _ h

lemma bCoeffs_getD (dx : K) (q : List K) (i : ℕ) (h : i < q.length) :
    (bCoeffs dx q).getD i 0 = bCoef dx (q.getD i 0) :=
  getD_map_of_lt _ _ _ h

/-- The full-mode loop writes only into the buffer `y`, and preserves its length. -/
lemma foldl_numerovMemStep_frame (l : List ℕ) (st : NumerovMem K) :
    (l.foldl numerovMemStep st).q = st.q ∧ (l.foldl numerovMemStep st).a = st.a ∧
    (l.foldl numerovMemStep st).b = st.b ∧
    (l.foldl numerovMemStep st).y.length = st.y.length := by
  induction l generalizing st with
  | nil => exact ⟨rfl, rfl, rfl, rfl⟩
  | cons i l ih =>
    have h := ih (numerovMemStep st i)
    simpa [numerovMemStep] using h

lemma numerovFullMem_q (q : List K) (y0 y1 : K) (dx : K) :
    (numerovFullMem q y0 y1 dx).q = q :=
  (foldl_numerovMemStep_frame _ _).1

lemma numerovFull_length (q : List K) (y0 y1 : K) (dx : K) :
    (numerovFull q y0 y1 dx).length = q.length := by
  have h := (foldl_numerovMemStep_frame (List.range' 2 (q.length - 2))
    (numerovInit q y0 y1 dx)).2.2.2
  simpa [numerovFull, numerovFullMem, numerovInit] using h

lemma numerovPairRec_fst_succ (a b : List K) (y0 y1 : K) (j : ℕ) :
    (numerovPairRec a b y0 y1 (j + 1)).1 = (numerovPairRec a b y0 y1 j).2 := rfl

/-- The last-two-values loop computes the closed-form pair. -/
lemma foldl_numerovTailStep (a b : List K) (y0 y1 : K) (m : ℕ) :
    (List.range' 2 m).foldl (numerovTailStep a b) (y0, y1) =
      numerovPairRec a b y0 y1 m := by
  induction m with
  | zero => rfl
  | succ m ih =>
    rw [List.range'_concat, List.foldl_append]
    simp only [List.foldl_cons, List.foldl_nil, ih]
    have h1 : 2 + 1 * m - 1 = m + 1 := by omega
    have h2 : 2 + 1 * m - 2 = m := by omega
    have h3 : 2 + 1 * m = m + 2 := by omega
    simp only [numerovTailStep, h1, h2, h3]
    rfl

/-- Invariant of the full-mode loop: after the first `m` iterations the buffer
holds the closed-form values at all indices below `m + 2`. -/
lemma numerovFullMem_invariant (q : List K) (y0 y1 : K) (dx : K) (m : ℕ)
    (hm : m + 2 ≤ q.length) :
    ∀ i < m + 2,
      ((List.range' 2 m).foldl numerovMemStep (numerovInit q y0 y1 dx)).y.getD i 0 =
        (numerovPairRec (aCoeffs dx q) (bCoeffs dx q) y0 y1 i).1 := by
  induction m with
  | zero =>
    intro i hi
    rw [show List.range' 2 0 = ([] : List ℕ) from rfl, List.foldl_nil]
    show (((List.replicate q.length 0).set 0 y0).set 1 y1).getD i 0 = _
    interval_cases i
    · rw [getD_set_of_ne _ _ _ _ _ (by omega),
        getD_set_self _ _ _ _ (by simp; omega)]
      rfl
    · rw [getD_set_self _ _ _ _ (by simp; omega)]
      rfl
  | succ m ih =>
    intro i hi
    have hm' : m + 2 ≤ q.length := by omega
    rw [List.range'_concat, List.foldl_append, List.foldl_cons, List.foldl_nil]
    set st := (List.range' 2 m).foldl numerovMemStep (numerovInit q y0 y1 dx) with hst
    have hfr := foldl_numerovMemStep_frame (List.range' 2 m) (numerovInit q y0 y1 dx)
    have ha : st.a = aCoeffs dx q := by
      rw [hst, hfr.2.1]; rfl
    have hb : st.b = bCoeffs dx q := by
      rw [hst, hfr.2.2.1]; rfl
    have hylen : st.y.length = q.length := by
      rw [hst, hfr.2.2.2]; simp [numerovInit]
    have hidx : 2 + 1 * m = m + 2 := by omega
    simp only [numerovMemStep, hidx]
    rcases Nat.lt_or_ge i (m + 2) with hlt | hge
    · -- index below the write position: unchanged by this iteration
      rw [getD_set_of_ne _ _ _ _ _ (by omega)]
      exact ih hm' i hlt
    · -- index equal to the write position: freshly written value
      have hieq : i = m + 2 := by omega
      subst hieq
      have h1 : m + 2 - 1 = m + 1 := by omega
      have h2 : m + 2 - 2 = m := by omega
      rw [getD_set_self _ _ _ _ (by rw [hylen]; omega)]
      rw [h1, h2, ha, hb, ih hm' (m + 1) (by omega), ih hm' m (by omega)]
      rfl

lemma numerovFull_getD (q : List K) (y0 y1 : K) (dx : K) (h2 : 2 ≤ q.length)
    (i : ℕ) (hi : i < q.length) :
    (numerovFull q y0 y1 dx).getD i 0 =
      (numerovPairRec (aCoeffs dx q) (bCoeffs dx q) y0 y1 i).1 := by
  have h := numerovFullMem_invariant q y0 y1 dx (q.length - 2) (by omega) i (by omega)
  simpa [numerovFull, numerovFullMem] using h

lemma numerovTail_eq (q : List K) (y0 y1 : K) (dx : K) :
    numerovTail q y0 y1 dx =
      numerovPairRec (aCoeffs dx q) (bCoeffs dx q) y0 y1 (q.length - 2) :=
  foldl_numerovTailStep _ _ _ _ _

/- ### Claims about the integrator -/

/-- C2: for every coefficient sequence `q` of length `n ≥ 3`, seeds `y0`, `y1`
and step `dx`, `numerov` in full mode returns the sequence `y_0 .. y_{n-1}` with
`y_0`, `y_1` equal to the supplied seeds and, for every `i` in `2 .. n-1`,
`y_i = (b_{i-1}*y_{i-1} - a_{i-2}*y_{i-2}) / a_i`, where `a_j = 12 + dx^2*q_j`
and `b_j = 24 - 10*dx^2*q_j`. -/
theorem numerov_full_mode_recursion (q : List ℂ) (y0 y1 : ℂ) (dx : ℂ)
    (h3 : 3 ≤ q.length) :
    numerov q y0 y1 dx true = Sum.inl (numerovFull q y0 y1 dx) ∧
    (numerovFull q y0 y1 dx).length = q.length ∧
    (numerovFull q y0 y1 dx).getD 0 0 = y0 ∧
    (numerovFull q y0 y1 dx).getD 1 0 = y1 ∧
    ∀ i, 2 ≤ i → i < q.length →
      (numerovFull q y0 y1 dx).getD i 0 =
        (bCoef dx (q.getD (i - 1) 0) * (numerovFull q y0 y1 dx).getD (i - 1) 0
          - aCoef dx (q.getD (i - 2) 0) * (numerovFull q y0 y1 dx).getD (i - 2) 0)
          / aCoef dx (q.getD i 0) := by
  refine ⟨rfl, numerovFull_length q y0 y1 dx, ?_, ?_, ?_⟩
  · rw [numerovFull_getD q y0 y1 dx (by omega) 0 (by omega)]
    rfl
  · rw [numerovFull_getD q y0 y1 dx (by omega) 1 (by omega)]
    rfl
  · intro i h2i hin
    obtain ⟨j, rfl⟩ : ∃ j, i = j + 2 := ⟨i - 2, by omega⟩
    have e1 : j + 2 - 1 = j + 1 := rfl
    have e2 : j + 2 - 2 = j := rfl
    rw [e1, e2, numerovFull_getD q y0 y1 dx (by omega) (j + 2) (by omega),
      numerovFull_getD q y0 y1 dx (by omega) (j + 1) (by omega),
      numerovFull_getD q y0 y1 dx (by omega) j (by omega),
      ← aCoeffs_getD dx q (j + 2) (by omega), ← aCoeffs_getD dx q j (by omega),
      ← bCoeffs_getD dx q (j + 1) (by omega)]
    rfl

/-- C2 witness: the theorem instantiated at `q = [1, 1, 1]`, seeds `0`, `1`, step `1`. -/
theorem numerov_full_mode_recursion_witness :
    (3 ≤ ([1, 1, 1] : List ℂ).length) ∧
    (numerov ([1, 1, 1] : List ℂ) 0 1 1 true = Sum.inl (numerovFull [1, 1, 1] 0 1 1) ∧
    (numerovFull ([1, 1, 1] : List ℂ) 0 1 1).length = ([1, 1, 1] : List ℂ).length ∧
    (numerovFull ([1, 1, 1] : List ℂ) 0 1 1).getD 0 0 = 0 ∧
    (numerovFull ([1, 1, 1] : List ℂ) 0 1 1).getD 1 0 = 1 ∧
    ∀ i, 2 ≤ i → i < ([1, 1, 1] : List ℂ).length →
      (numerovFull ([1, 1, 1] : List ℂ) 0 1 1).getD i 0 =
        (bCoef 1 (([1, 1, 1] : List ℂ).getD (i - 1) 0)
            * (numerovFull ([1, 1, 1] : List ℂ) 0 1 1).getD (i - 1) 0
          - aCoef 1 (([1, 1, 1] : List ℂ).getD (i - 2) 0)
            * (numerovFull ([1, 1, 1] : List ℂ) 0 1 1).getD (i - 2) 0)
          / aCoef 1 (([1, 1, 1] : List ℂ).getD i 0)) :=
  ⟨by decide, numerov_full_mode_recursion [1, 1, 1] 0 1 1 (by decide)⟩

/-- C3: for every coefficient sequence of length at least `2`, the last two
elements of the full-mode output of `numerov` are exactly the two values
returned in last-two-values mode on the same inputs. -/
theorem numerov_tail_matches_full (q : List ℂ) (y0 y1 : ℂ) (dx : ℂ)
    (h2 : 2 ≤ q.length) :
    numerov q y0 y1 dx false =
      Sum.inr ((numerovFull q y0 y1 dx).getD ((numerovFull q y0 y1 dx).length - 2) 0,
        (numerovFull q y0 y1 dx).getD ((numerovFull q y0 y1 dx).length - 1) 0) := by
  obtain ⟨m, hm⟩ : ∃ m, q.length = m + 2 := ⟨q.length - 2, by omega⟩
  show Sum.inr (numerovTail q y0 y1 dx) = _
  rw [numerovTail_eq, numerovFull_length, hm]
  have e1 : m + 2 - 2 = m := rfl
  have e2 : m + 2 - 1 = m + 1 := rfl
  rw [e1, e2, numerovFull_getD q y0 y1 dx h2 m (by omega),
    numerovFull_getD q y0 y1 dx h2 (m + 1) (by omega), numerovPairRec_fst_succ]

/-- C3 witness: the theorem instantiated at `q = [2, 3]`, seeds `5`, `7`, step `1`. -/
theorem numerov_tail_matches_full_witness :
    (2 ≤ ([2, 3] : List ℂ).length) ∧
    numerov ([2, 3] : List ℂ) 5 7 1 false =
      Sum.inr ((numerovFull ([2, 3] : List ℂ) 5 7 1).getD
          ((numerovFull ([2, 3] : List ℂ) 5 7 1).length - 2) 0,
        (numerovFull ([2, 3] : List ℂ) 5 7 1).getD
          ((numerovFull ([2, 3] : List ℂ) 5 7 1).length - 1) 0) :=
  ⟨by decide, numerov_tail_matches_full [2, 3] 5 7 1 (by decide)⟩

/-- C10: when the coefficient sequence has length exactly `2`, no iteration of
the recursion runs: full mode returns the two seeds as a sequence and
last-two-values mode returns them as a pair. -/
theorem numerov_length_two_returns_seeds (q : List ℂ) (y0 y1 : ℂ) (dx : ℂ)
    (h : q.length = 2) :
    numerov q y0 y1 dx true = Sum.inl [y0, y1] ∧
    numerov q y0 y1 dx false = Sum.inr (y0, y1) := by
  constructor
  · show Sum.inl (numerovFull q y0 y1 dx) = _
    congr 1
    simp only [numerovFull, numerovFullMem, numerovInit, h]
    rfl
  · show Sum.inr (numerovTail q y0 y1 dx) = _
    congr 1
    simp only [numerovTail, h]
    rfl

/-- C10 witness: the theorem instantiated at `q = [4, 9]`, seeds `3`, `6`, step `2`. -/
theorem numerov_length_two_returns_seeds_witness :
    (([4, 9] : List ℂ).length = 2) ∧
    (numerov ([4, 9] : List ℂ) 3 6 2 true = Sum.inl [3, 6] ∧
      numerov ([4, 9] : List ℂ) 3 6 2 false = Sum.inr (3, 6)) :=
  ⟨by decide, numerov_length_two_returns_seeds [4, 9] 3 6 2 (by decide)⟩

lemma padMap_eq_paddedQ (e : K) (v : List K) :
    ([0, 0] ++ v ++ [0, 0]).map (fun vi => e - vi) = paddedQ e v := by
  simp [paddedQ]

lemma paddedQ_length (e : K) (v : List K) :
    (paddedQ e v).length = v.length + 4 := by
  simp [paddedQ]

/-- C1: for right incidence (`left = false`), with `k = sqrt(e)` and
`(y0f, y1f)` the two final propagated values of the padded Numerov
integration, `amplitudes` computes `det = exp(i*k*dx) - exp(-i*k*dx)`,
`d = (exp(i*k*(n+1)*dx)*y0f - exp(i*k*n*dx)*y1f) / det`,
`c_refl = (-exp(-i*k*(n+1)*dx)*y0f + exp(-i*k*n*dx)*y1f) / det`, and returns
`(r, t) = (c_refl/d, exp(-i*k*dx)/d)`. -/
theorem amplitudes_right_incidence_formula (e dx : ℂ) (v : List ℂ) :
    amplitudes (fun z => ((Real.sqrt z.re : ℝ) : ℂ)) Complex.exp Complex.I
        e v dx false =
      (let n : ℂ := (v.length : ℂ)
       let k : ℂ := ((Real.sqrt e.re : ℝ) : ℂ)
       let p := numerovTail (paddedQ e v) (Complex.exp (Complex.I * k * dx)) 1 dx
       let det := Complex.exp (Complex.I * k * dx) - Complex.exp (-Complex.I * k * dx)
       let d := (Complex.exp (Complex.I * k * (n + 1) * dx) * p.1
           - Complex.exp (Complex.I * k * n * dx) * p.2) / det
       let crefl := (-Complex.exp (-Complex.I * k * (n + 1) * dx) * p.1
           + Complex.exp (-Complex.I * k * n * dx) * p.2) / det
       (crefl / d, Complex.exp (-Complex.I * k * dx) / d)) := by
  simp only [amplitudes, padMap_eq_paddedQ, Bool.false_eq_true, if_false]

/-- C5: both `amplitudes` and `wavefunction` build the padded coefficient
sequence of length `n + 4` (energy at the two prepended and two appended
points, energy minus potential inside), seed the integration with
`exp(i*k*dx)` at the point two steps before the propagation start and `1` at
the point one step before, and reverse the coefficient sequence before the
integrator exactly when the particle is incident from the left. -/
theorem padded_q_seeds_and_direction (e dx : ℂ) (v : List ℂ) (left : Bool) :
    (paddedQ e v).length = v.length + 4 ∧
    amplitudes (fun z => ((Real.sqrt z.re : ℝ) : ℂ)) Complex.exp Complex.I
        e v dx left =
      ampMatch Complex.exp Complex.I ((Real.sqrt e.re : ℝ) : ℂ) v.length dx left
        (numerovTail (if left then (paddedQ e v).reverse else paddedQ e v)
          (Complex.exp (Complex.I * ((Real.sqrt e.re : ℝ) : ℂ) * dx)) 1 dx) ∧
    wavefunction (fun z => ((Real.sqrt z.re : ℝ) : ℂ)) Complex.exp Complex.I
        e v dx left =
      wfPost Complex.exp Complex.I ((Real.sqrt e.re : ℝ) : ℂ) v.length dx left
        (numerovFull (if left then (paddedQ e v).reverse else paddedQ e v)
          (Complex.exp (Complex.I * ((Real.sqrt e.re : ℝ) : ℂ) * dx)) 1 dx) := by
  refine ⟨paddedQ_length e v, ?_, ?_⟩
  · cases left <;>
      simp only [amplitudes, ampMatch, padMap_eq_paddedQ]
  · cases left <;>
      simp only [wavefunction, wfPost, paddedQ]

/-- C4: `wavefunction` returns exactly `n` values: the full-mode Numerov
solution over the padded `(n+4)`-point coefficient sequence, divided
element-wise by the incident coefficient `a` obtained from the two tail
values, reversed back to original spatial order when the array was reversed
for left incidence, with the two padding points on each end stripped. -/
theorem wavefunction_shape_and_normalization (e dx : ℂ) (v : List ℂ) (left : Bool) :
    (wavefunction (fun z => ((Real.sqrt z.re : ℝ) : ℂ)) Complex.exp Complex.I
        e v dx left).length = v.length ∧
    wavefunction (fun z => ((Real.sqrt z.re : ℝ) : ℂ)) Complex.exp Complex.I
        e v dx left =
      (let k : ℂ := ((Real.sqrt e.re : ℝ) : ℂ)
       let q := if left then (paddedQ e v).reverse else paddedQ e v
       let y := numerovFull q (Complex.exp (Complex.I * k * dx)) 1 dx
       let det := Complex.exp (Complex.I * k * dx) - Complex.exp (-Complex.I * k * dx)
       let a := if left then
           (Complex.exp (2 * Complex.I * k * dx) * y.getD (y.length - 2) 0
             - Complex.exp (Complex.I * k * dx) * y.getD (y.length - 1) 0) / det
         else
           (Complex.exp (Complex.I * k * ((v.length : ℂ) + 1) * dx) * y.getD (y.length - 2) 0
             - Complex.exp (Complex.I * k * (v.length : ℂ) * dx) * y.getD (y.length - 1) 0) / det
       let ynorm := y.map (fun yi => yi / a)
       let yor := if left then ynorm.reverse else ynorm
       (yor.drop 2).take (yor.length - 4)) := by
  constructor
  · have hq : ([e, e] ++ v.map (fun vi => e - vi) ++ [e, e] : List ℂ).length
        = v.length + 4 := by simp
    cases left <;>
      simp [wavefunction, numerovFull_length, hq]
  · cases left with
    | false =>
      simp only [wavefunction, paddedQ, Bool.false_eq_true, if_false]
      rw [List.map_take, List.map_drop, List.length_map]
    | true =>
      simp only [wavefunction, paddedQ, Bool.true_eq_false, if_true]
      rw [← List.map_reverse, List.map_take, List.map_drop, List.length_map]

lemma vMul_map (g h : K → K) (es : List K) :
    vMul (es.map g) (es.map h) = es.map (fun e => g e * h e) := by
  rw [vMul, List.zipWith_map, List.zipWith_same]

lemma vSub_map (g h : K → K) (es : List K) :
    vSub (es.map g) (es.map h) = es.map (fun e => g e - h e) := by
  rw [vSub, List.zipWith_map, List.zipWith_same]

lemma vAdd_map (g h : K → K) (es : List K) :
    vAdd (es.map g) (es.map h) = es.map (fun e => g e + h e) := by
  rw [vAdd, List.zipWith_map, List.zipWith_same]

lemma vDiv_map (g h : K → K) (es : List K) :
    vDiv (es.map g) (es.map h) = es.map (fun e => g e / h e) := by
  rw [vDiv, List.zipWith_map, List.zipWith_same]

lemma getD_map_getElem {α β : Type} (f : α → β) (l : List α) (i : ℕ) (d : β)
    (h : i < l.length) : (l.map f).getD i d = f l[i] := by
  rw [List.getD_eq_getElem _ _ (by simpa using h), List.getElem_map]

lemma aCoeffsVec_getD (dx : K) (B es : List K) (j : ℕ) (hj : j < B.length) :
    (aCoeffsVec dx (B.map (fun vi => es.map (fun e => e - vi)))).getD j [] =
      es.map (fun e => aCoef dx (e - B[j])) := by
  rw [aCoeffsVec, List.map_map, getD_map_getElem _ _ _ _ hj]
  simp [Function.comp, List.map_map]

lemma bCoeffsVec_getD (dx : K) (B es : List K) (j : ℕ) (hj : j < B.length) :
    (bCoeffsVec dx (B.map (fun vi => es.map (fun e => e - vi)))).getD j [] =
      es.map (fun e => bCoef dx (e - B[j])) := by
  rw [bCoeffsVec, List.map_map, getD_map_getElem _ _ _ _ hj]
  simp [Function.comp, List.map_map]

lemma aCoeffs_mapB_getD (dx e : K) (B : List K) (j : ℕ) (hj : j < B.length) :
    (aCoeffs dx (B.map (fun vi => e - vi))).getD j 0 = aCoef dx (e - B[j]) := by
  rw [aCoeffs, List.map_map, getD_map_getElem _ _ _ _ hj]
  simp [Function.comp]

lemma bCoeffs_mapB_getD (dx e : K) (B : List K) (j : ℕ) (hj : j < B.length) :
    (bCoeffs dx (B.map (fun vi => e - vi))).getD j 0 = bCoef dx (e - B[j]) := by
  rw [bCoeffs, List.map_map, getD_map_getElem _ _ _ _ hj]
  simp [Function.comp]

/-- One batched iteration equals the scalar iteration applied per energy. -/
lemma numerovTailStepVec_map (B es : List K) (dx : K) (i : ℕ) (hi : i < B.length)
    (f0 f1 : K → K) :
    numerovTailStepVec (aCoeffsVec dx (B.map (fun vi => es.map (fun e => e - vi))))
        (bCoeffsVec dx (B.map (fun vi => es.map (fun e => e - vi))))
        (es.map f0, es.map f1) i =
      (es.map f1, es.map (fun e =>
        (numerovTailStep (aCoeffs dx (B.map (fun vi => e - vi)))
          (bCoeffs dx (B.map (fun vi => e - vi))) (f0 e, f1 e) i).2)) := by
  have h1 : i - 1 < B.length := by omega
  have h2 : i - 2 < B.length := by omega
  rw [numerovTailStepVec, aCoeffsVec_getD dx B es i hi, aCoeffsVec_getD dx B es (i - 2) h2,
    bCoeffsVec_getD dx B es (i - 1) h1, vMul_map, vMul_map, vSub_map, vDiv_map]
  refine congrArg (fun z => (es.map f1, z)) ?_
  refine List.map_congr_left ?_
  intro e he
  rw [numerovTailStep, aCoeffs_mapB_getD dx e B i hi, aCoeffs_mapB_getD dx e B (i - 2) h2,
    bCoeffs_mapB_getD dx e B (i - 1) h1]

/-- The batched last-two-values fold equals the scalar fold per energy. -/
lemma foldl_numerovTailStepVec_map (B es : List K) (dx : K) (l : List Nat)
    (hl : ∀ i ∈ l, i < B.length) (p : K → K × K) :
    l.foldl (numerovTailStepVec
        (aCoeffsVec dx (B.map (fun vi => es.map (fun e => e - vi))))
        (bCoeffsVec dx (B.map (fun vi => es.map (fun e => e - vi)))))
      (es.map (fun e => (p e).1), es.map (fun e => (p e).2)) =
      (es.map (fun e => (l.foldl (numerovTailStep (aCoeffs dx (B.map (fun vi => e - vi)))
            (bCoeffs dx (B.map (fun vi => e - vi)))) (p e)).1),
       es.map (fun e => (l.foldl (numerovTailStep (aCoeffs dx (B.map (fun vi => e - vi)))
            (bCoeffs dx (B.map (fun vi => e - vi)))) (p e)).2)) := by
  induction l generalizing p with
  | nil => rfl
  | cons i l ih =>
    rw [List.foldl_cons,
      numerovTailStepVec_map B es dx i (hl i (List.mem_cons_self i l))
        (fun e => (p e).1) (fun e => (p e).2)]
    have hl2 : ∀ j ∈ l, j < B.length := fun j hj => hl j (List.mem_cons_of_mem i hj)
    have h := ih hl2 (fun e =>
      numerovTailStep (aCoeffs dx (B.map (fun vi => e - vi)))
        (bCoeffs dx (B.map (fun vi => e - vi))) (p e) i)
    simp only [List.foldl_cons]
    exact h

/-- Batched `numerovTail` on `q = e - v` (position-major) is the scalar
`numerovTail` mapped over the energies. -/
lemma numerovTailVec_elementwise (B es : List K) (dx : K) (f0 f1 : K → K) :
    numerovTailVec (B.map (fun vi => es.map (fun e => e - vi)))
        (es.map f0) (es.map f1) dx =
      (es.map (fun e => (numerovTail (B.map (fun vi => e - vi)) (f0 e) (f1 e) dx).1),
       es.map (fun e => (numerovTail (B.map (fun vi => e - vi)) (f0 e) (f1 e) dx).2)) := by
  rw [numerovTailVec]
  have hlen : (B.map (fun vi => es.map (fun e => e - vi))).length = B.length :=
    List.length_map _ _
  rw [hlen]
  have hl : ∀ i ∈ List.range' 2 (B.length - 2), i < B.length := by
    intro i hi
    rw [List.mem_range'_1] at hi
    omega
  have h := foldl_numerovTailStepVec_map B es dx (List.range' 2 (B.length - 2)) hl
    (fun e => (f0 e, f1 e))
  simp only [numerovTail, List.length_map]
  exact h

/-- C6: `amplitudes` applied to a finite sequence of energies returns the
`(r, t)` pairs, in order, each equal to the scalar pipeline (q construction,
k, seeds, integration, matching) applied to the corresponding single energy. -/
theorem amplitudes_batch_elementwise (sqrtK expK : ℂ → ℂ) (im : ℂ)
    (es v : List ℂ) (dx : ℂ) (left : Bool) :
    amplitudesBatch sqrtK expK im es v dx left =
      es.map (fun e => amplitudes sqrtK expK im e v dx left) := by
  cases left with
  | false =>
    simp only [amplitudesBatch, amplitudes, Bool.false_eq_true, if_false,
      List.map_map]
    rw [numerovTailVec_elementwise]
    simp only [vMul_map, vSub_map, vAdd_map, vDiv_map, List.zip_map']
    rfl
  | true =>
    simp only [amplitudesBatch, amplitudes, eq_self_iff_true, if_true,
      List.map_map, ← List.map_reverse]
    rw [numerovTailVec_elementwise]
    simp only [vMul_map, vSub_map, vAdd_map, vDiv_map, List.zip_map']
    rfl

lemma readArr_append {α : Type} (st : Store α) (ls : List (List α)) (r : ℕ)
    (hr : r < st.length) : readArr (st ++ ls) r = readArr st r := by
  rw [readArr, readArr, List.getD_eq_getElem?_getD, List.getD_eq_getElem?_getD,
    List.getElem?_append_left hr]

lemma readArr_writeElem_of_ne {α : Type} (st : Store α) (w r i : ℕ) (x : α)
    (h : w ≠ r) : readArr (writeElem st w i x) r = readArr st r := by
  rw [readArr, writeElem, getD_set_of_ne _ _ _ _ _ h, readArr]

/-- The store-passing full-mode loop never touches addresses other than the
buffer address `ry`. -/
lemma foldl_numerovStStep_frame (ra rb ry : ℕ) (l : List ℕ) (st : Store K)
    (r : ℕ) (h : ry ≠ r) :
    readArr (l.foldl (numerovStStep ra rb ry) st) r = readArr st r := by
  induction l generalizing st with
  | nil => rfl
  | cons i l ih =>
    rw [List.foldl_cons, ih (numerovStStep ra rb ry st i),
      numerovStStep, readArr_writeElem_of_ne _ _ _ _ _ h]

lemma numerovFullSt_frame (st : Store K) (rq : ℕ) (y0 y1 dx : K) (r : ℕ)
    (hr : r < st.length) :
    readArr (numerovFullSt st rq y0 y1 dx).1 r = readArr st r := by
  simp only [numerovFullSt]
  rw [foldl_numerovStStep_frame _ _ _ _ _ _ (by omega)]
  exact readArr_append _ _ _ hr

lemma numerovTailSt_frame (st : Store K) (rq : ℕ) (y0 y1 dx : K) (r : ℕ)
    (hr : r < st.length) :
    readArr (numerovTailSt st rq y0 y1 dx).2 r = readArr st r := by
  simp only [numerovTailSt]
  exact readArr_append _ _ _ hr

/-- C9: for every input, `amplitudes`, `wavefunction` and `numerov` (both
modes) leave every array the caller already owned — in particular the
potential at `rv`, respectively the coefficient sequence at `rq` — holding
exactly the values it held before the call; the only element writes go into
the freshly allocated Numerov buffer. -/
theorem caller_arrays_unchanged (st : Store ℂ) (r rq rv : ℕ) (y0 y1 e dx : ℂ)
    (left : Bool) (hr : r < st.length) :
    readArr (numerovFullSt st rq y0 y1 dx).1 r = readArr st r ∧
    readArr (numerovTailSt st rq y0 y1 dx).2 r = readArr st r ∧
    readArr (amplitudesSt (fun z => ((Real.sqrt z.re : ℝ) : ℂ)) Complex.exp
        Complex.I e st rv dx left).2 r = readArr st r ∧
    readArr (wavefunctionSt (fun z => ((Real.sqrt z.re : ℝ) : ℂ)) Complex.exp
        Complex.I e st rv dx left).2 r = readArr st r := by
  refine ⟨numerovFullSt_frame st rq y0 y1 dx r hr,
    numerovTailSt_frame st rq y0 y1 dx r hr, ?_, ?_⟩
  · simp only [amplitudesSt]
    rw [numerovTailSt_frame _ _ _ _ _ _ (by simp; omega)]
    rw [readArr_append _ _ _ (by simp; omega), readArr_append _ _ _ (by simp; omega),
      readArr_append _ _ _ hr]
  · simp only [wavefunctionSt]
    rw [numerovFullSt_frame _ _ _ _ _ _ (by simp; omega)]
    exact readArr_append _ _ _ hr

/-- C9 witness: the theorem instantiated at the one-array store `[[1]]`. -/
theorem caller_arrays_unchanged_witness :
    ((0 : ℕ) < ([[1]] : Store ℂ).length) ∧
    (readArr (numerovFullSt ([[1]] : Store ℂ) 0 1 1 1).1 0 = readArr [[1]] 0 ∧
    readArr (numerovTailSt ([[1]] : Store ℂ) 0 1 1 1).2 0 = readArr [[1]] 0 ∧
    readArr (amplitudesSt (fun z => ((Real.sqrt z.re : ℝ) : ℂ)) Complex.exp
        Complex.I 1 ([[1]] : Store ℂ) 0 1 false).2 0 = readArr [[1]] 0 ∧
    readArr (wavefunctionSt (fun z => ((Real.sqrt z.re : ℝ) : ℂ)) Complex.exp
        Complex.I 1 ([[1]] : Store ℂ) 0 1 false).2 0 = readArr [[1]] 0) :=
  ⟨by decide, caller_arrays_unchanged [[1]] 0 0 0 1 1 1 1 false (by decide)⟩

/- ### Error handling: what the code actually does -/

/-- The matching denominator vanishes at `e = pi^2`, `dx = 1` (then
`k*dx = pi`). -/
lemma det_pi_sq_zero :
    Complex.exp (Complex.I * ((Real.sqrt (((Real.pi ^ 2 : ℝ) : ℂ)).re : ℝ) : ℂ) * 1)
      - Complex.exp (-Complex.I * ((Real.sqrt (((Real.pi ^ 2 : ℝ) : ℂ)).re : ℝ) : ℂ) * 1)
      = 0 := by
  rw [Complex.ofReal_re, Real.sqrt_sq Real.pi_pos.le]
  have h1 : Complex.I * ((Real.pi : ℝ) : ℂ) * 1 = (Real.pi : ℂ) * Complex.I := by ring
  have h2 : -Complex.I * ((Real.pi : ℝ) : ℂ) * 1 = -((Real.pi : ℂ) * Complex.I) := by
    ring
  rw [h1, h2, Complex.exp_neg, Complex.exp_pi_mul_I]
  norm_num

/-- C8 counterexample: at `e = pi^2`, `dx = 1` the denominator `det` is zero,
yet `amplitudes` raises nothing and still returns a value — the matching
divisions are executed regardless (with the exact-field convention
`z / 0 = 0` the result collapses to `(0, 0)`; in floating point it is
inf/NaN). -/
theorem amplitudes_det_zero_counterexample :
    (Complex.exp (Complex.I * ((Real.sqrt (((Real.pi ^ 2 : ℝ) : ℂ)).re : ℝ) : ℂ) * 1)
      - Complex.exp (-Complex.I * ((Real.sqrt (((Real.pi ^ 2 : ℝ) : ℂ)).re : ℝ) : ℂ) * 1)
      = 0) ∧
    amplitudes (fun z => ((Real.sqrt z.re : ℝ) : ℂ)) Complex.exp Complex.I
      ((Real.pi ^ 2 : ℝ) : ℂ) [0] 1 false = (0, 0) := by
  refine ⟨det_pi_sq_zero, ?_⟩
  simp only [amplitudes, Bool.false_eq_true, if_false, det_pi_sq_zero]
  simp

/-- C8 amended: `amplitudes` performs no check on the matching denominator:
whenever the computed `det` vanishes, it still returns a value — namely
`(0, 0)` under the exact-field convention `z / 0 = 0` — instead of surfacing
any numerical-instability condition. -/
theorem amplitudes_no_det_guard (e dx : ℂ) (v : List ℂ) (left : Bool)
    (hdet : Complex.exp (Complex.I * ((Real.sqrt e.re : ℝ) : ℂ) * dx)
      - Complex.exp (-Complex.I * ((Real.sqrt e.re : ℝ) : ℂ) * dx) = 0) :
    amplitudes (fun z => ((Real.sqrt z.re : ℝ) : ℂ)) Complex.exp Complex.I
      e v dx left = (0, 0) := by
  cases left with
  | false =>
    simp only [amplitudes, Bool.false_eq_true, if_false]
    rw [hdet]
    simp
  | true =>
    simp only [amplitudes, eq_self_iff_true, if_true]
    rw [hdet]
    simp

/-- C8 witness: the amended theorem instantiated at `e = pi^2`, `dx = 1`,
`v = [0]`, right incidence. -/
theorem amplitudes_no_det_guard_witness :
    (Complex.exp (Complex.I * ((Real.sqrt (((Real.pi ^ 2 : ℝ) : ℂ)).re : ℝ) : ℂ) * 1)
      - Complex.exp (-Complex.I * ((Real.sqrt (((Real.pi ^ 2 : ℝ) : ℂ)).re : ℝ) : ℂ) * 1)
      = 0) ∧
    amplitudes (fun z => ((Real.sqrt z.re : ℝ) : ℂ)) Complex.exp Complex.I
      ((Real.pi ^ 2 : ℝ) : ℂ) [0] 1 false = (0, 0) :=
  ⟨det_pi_sq_zero,
    amplitudes_no_det_guard ((Real.pi ^ 2 : ℝ) : ℂ) 1 [0] false det_pi_sq_zero⟩

/-- C7 counterexample: an empty potential together with a non-positive step
`dx = -1` is not rejected: both functions proceed and return a computed
result (`amplitudes` returns `(0, 0)` here because the free matching
denominator also degenerates at `e = 0`; `wavefunction` returns the empty
list). -/
theorem no_input_validation_counterexample :
    amplitudes (fun z => ((Real.sqrt z.re : ℝ) : ℂ)) Complex.exp Complex.I
        0 [] (-1) false = (0, 0) ∧
    wavefunction (fun z => ((Real.sqrt z.re : ℝ) : ℂ)) Complex.exp Complex.I
        0 [] (-1) false = [] := by
  constructor
  · simp [amplitudes]
  · simp [wavefunction, numerovFull_length]

/-- C7 amended: `amplitudes` and `wavefunction` perform no input validation:
for every energy, every step (including non-positive ones) and either side,
the empty potential is accepted and a result is computed — `wavefunction`
returns the empty list and `amplitudes` returns the matched pair obtained
from the free four-point propagation.  (No separate energy/potential shape
check exists either: the energy axis is broadcast against the 1-D potential.) -/
theorem no_input_validation (e dx : ℂ) (left : Bool) :
    wavefunction (fun z => ((Real.sqrt z.re : ℝ) : ℂ)) Complex.exp Complex.I
        e [] dx left = [] ∧
    amplitudes (fun z => ((Real.sqrt z.re : ℝ) : ℂ)) Complex.exp Complex.I
        e [] dx left =
      ampMatch Complex.exp Complex.I ((Real.sqrt e.re : ℝ) : ℂ) 0 dx left
        (numerovTail (if left then (paddedQ e []).reverse else paddedQ e [])
          (Complex.exp (Complex.I * ((Real.sqrt e.re : ℝ) : ℂ) * dx)) 1 dx) := by
  constructor
  · cases left <;> simp [wavefunction, numerovFull_length]
  · cases left <;> simp [amplitudes, ampMatch, padMap_eq_paddedQ, paddedQ]

end Transport

